import Mathlib

/-!
Shallow embedding of the SeQUeNCe simulation-kernel sources:
  src/kernel/quantum_state.py   (QuantumManager, KetState)
  src/protocols/entanglement/purification.py  (BBPSSW, BBPSSWMessage)

Modelling conventions, fixed once and used throughout:
* Complex amplitude scalars are modelled by integers.  Every property
  verified about the store depends only on vector lengths, key lists,
  control flow and object identity, never on the value of an amplitude,
  so an executable ordered ring whose operations the kernel can evaluate
  suffices.  The fidelity formulas of the purification protocol are real
  arithmetic and are modelled over the rationals further below.
* Python object identity is modelled by a numeric id allocated from a
  counter threaded through the store (field objId on KetState, field id on
  Memory): every constructor call yields a fresh id, so two model values
  share an id exactly when the two Python runtime objects are the same.
* A Python assert or uncaught exception is modelled by returning none:
  the operation aborts with no visible effect.
* numpy membership (x not in list) first tests object identity per
  element; a non-identical array of equal length greater than one makes
  the elementwise comparison ambiguous and raises, which we model as none;
  arrays of different lengths compare unequal.
-/

/-- Model of quantum_state.py KetState: amplitude vector plus the ordered
list of keys whose joint state it is.  objId models Python object identity. -/
structure KetState where
  objId : Nat
  state : List ℤ
  keys : List Nat
  deriving DecidableEq, Repr

/-- The two constructor asserts of KetState: every amplitude magnitude at
most one, and the vector length is two to the number of keys (equivalently:
log2 of the length is an integer equal to the number of keys). -/
def ketValid (amps : List ℤ) (keys : List Nat) : Bool :=
  amps.all (fun a => |a| ≤ 1) && amps.length == 2 ^ keys.length

/-- KetState constructor; none models a failed assert. -/
def mkKetState (objId : Nat) (amps : List ℤ) (keys : List Nat) : Option KetState :=
  if ketValid amps keys then some ⟨objId, amps, keys⟩ else none

/-- Model of QuantumManager: the states dict (association list keyed by
qubit key), the allocation counter, and the object-identity counter. -/
structure QuantumManager where
  states : List (Nat × KetState)
  least_available : Nat
  next_obj : Nat
  deriving DecidableEq, Repr

def qmEmpty : QuantumManager := ⟨[], 0, 0⟩

/-- Dictionary lookup self.states[key]; none models KeyError. -/
def lookupKey (st : List (Nat × KetState)) (k : Nat) : Option KetState :=
  (st.find? (fun p => p.1 == k)).map (fun p => p.2)

/-- Dictionary assignment self.states[key] = v. -/
def insertKey (st : List (Nat × KetState)) (k : Nat) (v : KetState) :
    List (Nat × KetState) :=
  (k, v) :: st.filter (fun p => p.1 ≠ k)

/-- QuantumManager.new: allocate the next key and store a fresh
single-qubit KetState under it. -/
def qmNew (m : QuantumManager) (amps : List ℤ) : Option (Nat × QuantumManager) :=
  let key := m.least_available
  match mkKetState m.next_obj amps [key] with
  | none => none
  | some q =>
      some (key, ⟨insertKey m.states key q, key + 1, m.next_obj + 1⟩)

/-- The assignment loop of QuantumManager.set: repoint every listed key to
the single shared KetState object. -/
def setLoop (q : KetState) : List Nat → List (Nat × KetState) →
    List (Nat × KetState)
  | [], st => st
  | k :: rest, st => setLoop q rest (insertKey st k q)

/-- QuantumManager.set: one fresh KetState object, assigned to every listed
key (all keys point to the same instance). -/
def qmSet (m : QuantumManager) (keys : List Nat) (amps : List ℤ) :
    Option QuantumManager :=
  match mkKetState m.next_obj amps keys with
  | none => none
  | some q =>
      some ⟨setLoop q keys m.states, m.least_available, m.next_obj + 1⟩

/-- QuantumManager.remove: del self.states[key]; KeyError when absent. -/
def qmRemove (m : QuantumManager) (k : Nat) : Option QuantumManager :=
  if (lookupKey m.states k).isSome then
    some ⟨m.states.filter (fun p => p.1 ≠ k), m.least_available, m.next_obj⟩
  else none

/-- Python membership test qstate.state not in old_states for numpy arrays:
identity shortcut first; equal-length non-identical arrays of size greater
than one raise (ambiguous truth value), modelled none; length-one arrays
compare by content; different lengths compare unequal. -/
def stateMem : List KetState → KetState → Option Bool
  | [], _ => some false
  | s :: rest, q =>
      if s.objId = q.objId then some true
      else if s.state.length = q.state.length then
        if s.state.length ≤ 1 then
          if s.state = q.state then some true else stateMem rest q
        else none
      else stateMem rest q

/-- The collection loop of run_circuit: walk the requested keys, look each
one up, and append the distinct states (deduplicated per stateMem) and
their member keys. -/
def collect (st : List (Nat × KetState)) :
    List Nat → List KetState → List Nat → Option (List KetState × List Nat)
  | [], old, acc => some (old, acc)
  | k :: ks, old, acc =>
      match lookupKey st k with
      | none => none
      | some q =>
          match stateMem old q with
          | none => none
          | some true => collect st ks old acc
          | some false => collect st ks (old ++ [q]) (acc ++ q.keys)

/-- Kronecker product of amplitude vectors. -/
def kronVec (v w : List ℤ) : List ℤ :=
  v.flatMap (fun a => w.map (fun b => a * b))

def dotProd (v w : List ℤ) : ℤ :=
  (List.zip v w).foldl (fun acc p => acc + p.1 * p.2) 0

/-- numpy identity(n): the n by n identity matrix. -/
def identityMat (n : Nat) : List (List ℤ) :=
  (List.range n).map (fun i => (List.range n).map (fun j => if i = j then 1 else 0))

/-- numpy matrix product A @ B; none models the shape-mismatch ValueError. -/
def matMul (A B : List (List ℤ)) : Option (List (List ℤ)) :=
  if A.all (fun row => row.length == B.length) then
    some (A.map (fun row =>
      (List.range (B.headD []).length).map (fun j =>
        dotProd row (B.map (fun br => br.getD j 0)))))
  else none

/-- numpy matrix-vector product A @ v; none models shape mismatch. -/
def matVec (A : List (List ℤ)) (v : List ℤ) : Option (List ℤ) :=
  if A.all (fun row => row.length == v.length) then
    some (A.map (fun row => dotProd row v))
  else none

def getBit (b i : Nat) : Nat := b / 2 ^ i % 2

/-- Index permutation realised by a SWAP gate on qubits i and j of an
n-qubit register, qutip convention: qubit 0 is the leftmost tensor factor,
hence the most significant bit of a basis index. -/
def swapBitIdx (n i j b : Nat) : Nat :=
  let qi := n - 1 - i
  let qj := n - 1 - j
  let bi := getBit b qi
  let bj := getBit b qj
  b - bi * 2 ^ qi - bj * 2 ^ qj + bj * 2 ^ qi + bi * 2 ^ qj

/-- Action of the SWAP gate on a joint amplitude vector of n qubits. -/
def swapQubitsVec (n i j : Nat) (v : List ℤ) : List ℤ :=
  (List.range (2 ^ n)).map (fun b => v.getD (swapBitIdx n i j b) 0)

/-- The swap-sort loop of run_circuit.  The (i, j) pairs are the
enumeration of qubit_indices, which the source computes once, before any
swap is applied.  Each executed swap exchanges positions i and j of
all_keys and applies the corresponding SWAP gate to the vector. -/
def swapSort (n : Nat) : List (Nat × Nat) → List Nat → List ℤ →
    List Nat × List ℤ
  | [], allKeys, v => (allKeys, v)
  | p :: rest, allKeys, v =>
      if p.1 ≠ p.2 then
        swapSort n rest
          ((allKeys.set p.1 (allKeys.getD p.2 0)).set p.2 (allKeys.getD p.1 0))
          (swapQubitsVec n p.1 p.2 v)
      else swapSort n rest allKeys v

/-- Opaque circuit value as the store sees it: a declared qubit count and
an operator matrix. -/
structure Circuit where
  size : Nat
  circuit_matrix : List (List ℤ)
  deriving DecidableEq, Repr

/-- The body of the publication loop of run_circuit: assign a freshly
constructed KetState (new object identity per iteration) to each key. -/
def publishLoop (amps : List ℤ) (allKeys : List Nat) :
    List Nat → List (Nat × KetState) → Nat → List (Nat × KetState) × Nat
  | [], st, nextObj => (st, nextObj)
  | key :: rest, st, nextObj =>
      publishLoop amps allKeys rest
        (insertKey st key ⟨nextObj, amps, allKeys⟩) (nextObj + 1)

/-- The publication loop of run_circuit: for key in all_keys,
self.states[key] = KetState(new_state, all_keys) — note a fresh KetState
object per iteration.  The constructor asserts are identical across
iterations, so the loop either aborts before its first assignment or runs
in full; we check once and then fold. -/
def publishStates (st : List (Nat × KetState)) (nextObj : Nat)
    (allKeys : List Nat) (amps : List ℤ) :
    Option (List (Nat × KetState) × Nat) :=
  match allKeys with
  | [] => some (st, nextObj)
  | _ =>
      if ketValid amps allKeys then
        some (publishLoop amps allKeys allKeys st nextObj)
      else none

/-- QuantumManager.run_circuit, step for step from the source:
collect distinct states and all_keys; tensor the vectors; compute
qubit_indices once; swap-sort keys and vector; pad the circuit matrix by
right-multiplying with identity(len(all_keys) - size) when the circuit is
smaller; apply the matrix to the vector; publish a fresh KetState per key. -/
def run_circuit (m : QuantumManager) (c : Circuit) (keys : List Nat) :
    Option QuantumManager :=
  match collect m.states keys [] [] with
  | none => none
  | some col =>
      let old_states := col.1
      let all_keys0 := col.2
      let new_state0 := old_states.foldl (fun v s => kronVec v s.state) [1]
      let qubit_indices := keys.map (fun k => all_keys0.indexOf k)
      let sorted := swapSort all_keys0.length qubit_indices.enum all_keys0 new_state0
      let all_keys := sorted.1
      let new_state1 := sorted.2
      match (if c.size < all_keys.length then
               matMul c.circuit_matrix (identityMat (all_keys.length - c.size))
             else some c.circuit_matrix) with
      | none => none
      | some circ_mat =>
          match matVec circ_mat new_state1 with
          | none => none
          | some new_state2 =>
              match publishStates m.states m.next_obj all_keys new_state2 with
              | none => none
              | some pub => some ⟨pub.1, m.least_available, pub.2⟩

/-- A concrete two-qubit entangled state: the pair (keys 0 and 1) installed
by QuantumManager.set, which stores one shared KetState instance. -/
def bellAmps : List ℤ := [1, 0, 0, 0]

def qmPair : QuantumManager := (qmSet qmEmpty [0, 1] bellAmps).getD qmEmpty

/-- A two-qubit circuit whose operator is the 4 by 4 identity. -/
def c2id : Circuit := ⟨2, identityMat 4⟩

/-- A one-qubit circuit whose operator is the 2 by 2 identity. -/
def c1id : Circuit := ⟨1, identityMat 2⟩

/-- C1: after run_circuit on the entangled pair, the store maps keys 0 and
1 to two KetState objects with distinct object identities (objId 1 and 2),
produced by two separate constructor calls in the publication loop.  The
claim requires one and the same instance under every key of all_keys; the
code creates a fresh instance per key, so lookups return distinct objects
and the store's own identity-based representation of entanglement (and the
identity-based deduplication of a later run_circuit) is broken. -/
theorem run_circuit_fresh_objects :
    (run_circuit qmPair c2id [0, 1]).map
        (fun m => ((lookupKey m.states 0).map KetState.objId,
                   (lookupKey m.states 1).map KetState.objId))
      = some (some 1, some 2) := by
  decide

/-- C3: run_circuit on the entangled pair with requested key order [1, 0].
The swap loop uses qubit indices computed before any swap, so position 0
and position 1 are swapped twice and the published member-key order is
[0, 1]: the requested key 1 does not end at position 0 as the claim (and
the spec's swap-sort step) requires. -/
theorem run_circuit_swap_order :
    (run_circuit qmPair c2id [1, 0]).map
        (fun m => (lookupKey m.states 0).map KetState.keys)
      = some (some [0, 1]) := by
  decide

/-- C2: run_circuit with a one-qubit circuit on a key of the two-qubit
entangled pair reaches the padding branch (size 1 < 2 keys) and aborts:
the source right-multiplies the 2 by 2 operator with identity(1), a shape
mismatch, instead of tensoring with a 2-dimensional identity to obtain the
4-dimensional padded operator the claim requires. -/
theorem run_circuit_padding_error :
    run_circuit qmPair c1id [0] = none := by
  decide

/-- Model of the external Memory handle: fidelity scalar and the node name
recorded in entangled_memory.  id models Python object identity. -/
structure Memory where
  id : Nat
  fidelity : ℚ
  entangled_node : String
  deriving DecidableEq, Repr

structure BBPSSWMessage where
  msg_type : String
  receiver : String
  deriving DecidableEq, Repr

/-- BBPSSWMessage constructor: any message type other than
PURIFICATION_RES raises. -/
def mkBBPSSWMessage (msg_type receiver : String) : Option BBPSSWMessage :=
  if msg_type = "PURIFICATION_RES" then some ⟨msg_type, receiver⟩ else none

/-- Model of a BBPSSW protocol instance.  own_name is the owning node's
name; t0 is the timeline value captured at construction; is_success is the
shared outcome field (None, True or False).  The counterpart reference
(another) is passed explicitly to the operations that read it. -/
structure BBPSSW where
  own_name : String
  name : String
  kept_memo : Memory
  meas_memo : Option Memory
  t0 : Nat
  is_success : Option Bool
  deriving DecidableEq, Repr

namespace BBPSSW

/-- BBPSSW.__init__: the constructor asserts kept_memo != meas_memo.
Python objects compare by identity here, and under the convention that a
model value denotes one runtime object, same object means equal value; a
distinct object always differs (at least in id), so the assert fails
exactly when meas is the very same memory as kept. -/
def make (own_name name : String) (kept : Memory) (meas : Option Memory)
    (t0 : Nat) : Option BBPSSW :=
  match meas with
  | some m =>
      if m = kept then none
      else some ⟨own_name, name, kept, some m, t0, none⟩
  | none => some ⟨own_name, name, kept, none, t0, none⟩

/-- self.memories after construction: [kept_memo, meas_memo] with the
trailing element popped when meas_memo is None. -/
def memories (p : BBPSSW) : List Memory :=
  p.kept_memo :: p.meas_memo.toList

/-- self.is_primary, assigned in the constructor: meas_memo is not None. -/
def is_primary (p : BBPSSW) : Bool :=
  p.meas_memo.isSome

/-- BBPSSW.success_probability (Dur and Briegel 2007, page 14). -/
def success_probability (F : ℚ) : ℚ :=
  F ^ 2 + 2 * F * (1 - F) / 3 + 5 * ((1 - F) / 3) ^ 2

/-- BBPSSW.improved_fidelity (Dur and Briegel 2007, formula 18, page 14);
the denominator is written out in the source rather than calling
success_probability, mirrored here. -/
def improved_fidelity (F : ℚ) : ℚ :=
  (F ^ 2 + ((1 - F) / 3) ^ 2) /
    (F ^ 2 + 2 * F * (1 - F) / 3 + 5 * ((1 - F) / 3) ^ 2)

/-- BBPSSW.start.  another is the counterpart reference (None models an
unlinked instance, whose assert fails); rand models the value drawn by
numpy.random.random().  Aborted asserts return none: nothing is drawn, no
fidelity is updated, no message is sent.  On success the result carries
the updated self, the updated counterpart (its is_success written directly
when the outcome was still undecided), the PURIFICATION_RES message and
the destination node name. -/
def start (self : BBPSSW) (another : Option BBPSSW) (rand : ℚ) :
    Option (BBPSSW × BBPSSW × BBPSSWMessage × String) :=
  match another with
  | none => none
  | some other =>
      match self.meas_memo with
      | none => none
      | some meas =>
          if self.kept_memo.entangled_node = meas.entangled_node then
            if self.kept_memo.fidelity = meas.fidelity ∧ 1 / 2 < meas.fidelity then
              let outcome :=
                match self.is_success with
                | none => decide (rand < success_probability self.kept_memo.fidelity)
                | some b => b
              let other2 :=
                match self.is_success with
                | none => { other with is_success := some outcome }
                | some _ => other
              let dst := self.kept_memo.entangled_node
              let kept2 :=
                if outcome then
                  { self.kept_memo with
                      fidelity := improved_fidelity self.kept_memo.fidelity }
                else self.kept_memo
              some ({ self with is_success := some outcome, kept_memo := kept2 },
                    other2, ⟨"PURIFICATION_RES", other.name⟩, dst)
            else none
          else none

/-- BBPSSW.received_message.  The result is the sequence of
resource-manager update calls as (memory identity, new state) pairs; the
measurement memory slot is an Option because the source passes
self.meas_memo through unchecked.  none models the failed sender assert
(or the attribute access on an unlinked counterpart). -/
def received_message (p : BBPSSW) (another : Option BBPSSW) (src : String) :
    Option (List (Option Nat × String)) :=
  match another with
  | none => none
  | some a =>
      if src = a.own_name then
        some [(p.meas_memo.map Memory.id, "RAW"),
              (some p.kept_memo.id,
               if p.is_success = some true then "ENTANGLED" else "RAW")]
      else none

/-- BBPSSW.memory_expire.  now is the timeline value, delay the one-way
classical-channel delay looked up from the owning node's channel registry.
The result lists the resource-manager updates issued; none models a failed
assert or the deadline-exceeded exception. -/
def memory_expire (p : BBPSSW) (mem : Memory) (now delay : Nat) :
    Option (List (Nat × String)) :=
  if p.memories.any (fun m => m.id == mem.id) then
    match p.meas_memo with
    | none => some [(mem.id, "RAW")]
    | some _ =>
        if p.is_primary then
          if now < p.t0 + delay then
            some ((mem.id, "RAW") ::
              (p.memories.filter (fun m => m.id != mem.id)).map
                (fun m => (m.id, "ENTANGLED")))
          else if now < p.t0 + 2 * delay then
            some (p.memories.map (fun m => (m.id, "RAW")))
          else none
        else
          -- dead in the current control structure: is_primary holds exactly
          -- when meas_memo is present, which the outer match established
          if now < p.t0 + delay then
            some (p.memories.map (fun m => (m.id, "RAW")))
          else if now < p.t0 + 2 * delay then
            if mem.id = p.kept_memo.id then
              some (p.memories.map (fun m => (m.id, "RAW")))
            else some []
          else some []
  else none

end BBPSSW

/-- C10: the BBPSSW constructor fails exactly when the measurement memory
is the very same memory object as the kept memory; otherwise construction
succeeds, so kept_memo distinct from meas_memo is an enforced
precondition of every construction attempt. -/
theorem make_requires_distinct_memories (own name : String) (kept : Memory)
    (meas : Option Memory) (t0 : Nat) :
    (BBPSSW.make own name kept meas t0).isNone ↔ meas = some kept := by
  cases meas with
  | none => simp [BBPSSW.make]
  | some m =>
      by_cases h : m = kept <;> simp [BBPSSW.make, h]

/-- C6: start aborts, producing no outcome draw, no fidelity update and no
message, whenever a precondition fails: unlinked counterpart, different
recorded remote nodes, different fidelities, or common fidelity not above
one half; with every precondition met it returns a result. -/
theorem start_precondition_checks (self other : BBPSSW) (r : ℚ) (meas : Memory)
    (hm : self.meas_memo = some meas) :
    BBPSSW.start self none r = none ∧
    (self.kept_memo.entangled_node ≠ meas.entangled_node →
      BBPSSW.start self (some other) r = none) ∧
    (self.kept_memo.fidelity ≠ meas.fidelity →
      BBPSSW.start self (some other) r = none) ∧
    (meas.fidelity ≤ 1 / 2 → BBPSSW.start self (some other) r = none) ∧
    (self.kept_memo.entangled_node = meas.entangled_node →
      self.kept_memo.fidelity = meas.fidelity → 1 / 2 < meas.fidelity →
      (BBPSSW.start self (some other) r).isSome) := by
  refine ⟨rfl, ?_, ?_, ?_, ?_⟩
  · intro h
    simp [BBPSSW.start, hm, h]
  · intro h
    simp only [BBPSSW.start, hm]
    split_ifs with h1 h2 <;> simp_all
  · intro h
    simp only [BBPSSW.start, hm]
    split_ifs with h1 h2 <;> simp_all
    exact absurd h2.2 (not_lt.mpr h)
  · intro h1 h2 h3
    simp [BBPSSW.start, hm, h1, h2, h3]
    linarith

def w6kept : Memory := ⟨0, 1, "bob"⟩
def w6meas : Memory := ⟨1, 1, "bob"⟩
def w6self : BBPSSW := ⟨"alice", "p1", w6kept, some w6meas, 0, none⟩
def w6other : BBPSSW := ⟨"bob", "p2", ⟨2, 1, "alice"⟩, some ⟨3, 1, "alice"⟩, 0, none⟩

/-- Witness for C6 at a concrete conforming pair of fidelity-1 memories. -/
theorem start_precondition_checks_witness :
    BBPSSW.start w6self none 0 = none ∧
    (BBPSSW.start w6self (some w6other) 0).isSome :=
  ⟨(start_precondition_checks w6self w6other 0 w6meas rfl).1,
   (start_precondition_checks w6self w6other 0 w6meas rfl).2.2.2.2 rfl rfl
     (by norm_num [w6meas])⟩

/-- C4: when start runs to completion it leaves the two linked instances
with equal outcome fields: an undecided pair draws one Bernoulli outcome
from the random value and writes it on both instances; an already-decided
instance keeps its outcome and leaves the counterpart untouched (no second
draw).  The hypothesis is the pair invariant: either no outcome has been
decided yet, or the two sides already agree. -/
theorem start_shared_outcome (self other self2 other2 : BBPSSW)
    (msg : BBPSSWMessage) (dst : String) (r : ℚ)
    (hpair : self.is_success = none ∨ self.is_success = other.is_success)
    (h : BBPSSW.start self (some other) r = some (self2, other2, msg, dst)) :
    self2.is_success = other2.is_success ∧
    (self.is_success = none →
      self2.is_success =
        some (decide (r < BBPSSW.success_probability self.kept_memo.fidelity))) ∧
    (∀ b, self.is_success = some b → self2.is_success = some b ∧ other2 = other) := by
  cases hmm : self.meas_memo with
  | none => simp [BBPSSW.start, hmm] at h
  | some meas =>
      simp only [BBPSSW.start, hmm] at h
      split_ifs at h with h1 h2 h3 <;>
        cases hs : self.is_success with
        | none =>
            simp only [hs, Option.some.injEq, Prod.mk.injEq] at h
            obtain ⟨h4, h5, -, -⟩ := h
            subst h4
            subst h5
            simp
        | some b =>
            simp only [hs, Option.some.injEq, Prod.mk.injEq] at h
            obtain ⟨h4, h5, -, -⟩ := h
            subst h4
            subst h5
            rcases hpair with hp | hp
            · rw [hs] at hp
              exact absurd hp (by simp)
            · rw [hs] at hp
              simp [← hp, hs]

def w4self2 : BBPSSW := ⟨"alice", "p1", ⟨0, 1, "bob"⟩, some w6meas, 0, some true⟩
def w4other2 : BBPSSW :=
  ⟨"bob", "p2", ⟨2, 1, "alice"⟩, some ⟨3, 1, "alice"⟩, 0, some true⟩

/-- Witness for C4: a concrete undecided pair at fidelity 1 and random
value 0; the draw succeeds and is recorded on both instances. -/
theorem start_shared_outcome_witness :
    w4self2.is_success = w4other2.is_success ∧
    (w6self.is_success = none →
      w4self2.is_success =
        some (decide ((0:ℚ) < BBPSSW.success_probability w6self.kept_memo.fidelity))) ∧
    (∀ b, w6self.is_success = some b →
      w4self2.is_success = some b ∧ w4other2 = w6other) :=
  start_shared_outcome w6self w6other w4self2 w4other2
    ⟨"PURIFICATION_RES", "p2"⟩ "bob" 0 (Or.inl rfl)
    (by norm_num [BBPSSW.start, BBPSSW.success_probability,
                  BBPSSW.improved_fidelity, w6self, w6other, w6kept, w6meas,
                  w4self2, w4other2])

/-- C5: on a two-memory (primary) instance, memory_expire on a held memory
follows the three timing windows: strictly before t0 plus delay it marks
the expired memory RAW and every other held memory ENTANGLED; from t0 plus
delay up to but excluding t0 plus twice delay it marks all held memories
RAW; at or after t0 plus twice delay it fails fatally. -/
theorem memory_expire_timing_windows (p : BBPSSW) (meas mem : Memory)
    (now delay : Nat) (hm : p.meas_memo = some meas)
    (hmem : mem.id ∈ (BBPSSW.memories p).map Memory.id) :
    (now < p.t0 + delay → ∃ upd,
      BBPSSW.memory_expire p mem now delay = some upd ∧
      (mem.id, "RAW") ∈ upd ∧
      (∀ m ∈ BBPSSW.memories p, m.id ≠ mem.id → (m.id, "ENTANGLED") ∈ upd) ∧
      (∀ e ∈ upd, e = (mem.id, "RAW") ∨ e.2 = "ENTANGLED")) ∧
    (p.t0 + delay ≤ now → now < p.t0 + 2 * delay → ∃ upd,
      BBPSSW.memory_expire p mem now delay = some upd ∧
      (∀ m ∈ BBPSSW.memories p, (m.id, "RAW") ∈ upd) ∧
      (∀ e ∈ upd, e.2 = "RAW")) ∧
    (p.t0 + 2 * delay ≤ now →
      BBPSSW.memory_expire p mem now delay = none) := by
  have hg : (p.memories.any fun m => m.id == mem.id) = true := by
    obtain ⟨a, ha, hid⟩ := List.mem_map.mp hmem
    exact List.any_eq_true.mpr ⟨a, ha, by simp [hid]⟩
  have hp : p.is_primary = true := by
    simp [BBPSSW.is_primary, hm]
  refine ⟨?_, ?_, ?_⟩
  · intro h1
    refine ⟨(mem.id, "RAW") ::
      (p.memories.filter (fun m => m.id != mem.id)).map
        (fun m => (m.id, "ENTANGLED")), ?_, ?_, ?_, ?_⟩
    · simp only [BBPSSW.memory_expire, hg, if_true, hm, hp]
      simp [h1]
    · exact List.mem_cons_self _ _
    · intro m hmm hne
      refine List.mem_cons_of_mem _ (List.mem_map.mpr ⟨m, ?_, rfl⟩)
      exact List.mem_filter.mpr ⟨hmm, by simp [hne]⟩
    · intro e he
      rcases List.mem_cons.mp he with h | h
      · exact Or.inl h
      · obtain ⟨m, -, rfl⟩ := List.mem_map.mp h
        exact Or.inr rfl
  · intro h2a h2b
    refine ⟨p.memories.map (fun m => (m.id, "RAW")), ?_, ?_, ?_⟩
    · simp only [BBPSSW.memory_expire, hg, if_true, hm, hp]
      simp [h2b, not_lt.mpr h2a]
    · intro m hmm
      exact List.mem_map.mpr ⟨m, hmm, rfl⟩
    · intro e he
      obtain ⟨m, -, rfl⟩ := List.mem_map.mp he
      rfl
  · intro h3
    simp only [BBPSSW.memory_expire, hg, if_true, hm, hp]
    have hn1 : ¬ now < p.t0 + delay := by omega
    have hn2 : ¬ now < p.t0 + 2 * delay := by omega
    simp [hn1, hn2]

/-- Witness for C5: a concrete primary instance holding memories 0 and 1,
with t0 zero and delay ten. -/
theorem memory_expire_timing_windows_witness :
    (5 < w6self.t0 + 10 → ∃ upd,
      BBPSSW.memory_expire w6self w6meas 5 10 = some upd ∧
      (w6meas.id, "RAW") ∈ upd ∧
      (∀ m ∈ BBPSSW.memories w6self, m.id ≠ w6meas.id → (m.id, "ENTANGLED") ∈ upd) ∧
      (∀ e ∈ upd, e = (w6meas.id, "RAW") ∨ e.2 = "ENTANGLED")) ∧
    (w6self.t0 + 10 ≤ 5 → 5 < w6self.t0 + 2 * 10 → ∃ upd,
      BBPSSW.memory_expire w6self w6meas 5 10 = some upd ∧
      (∀ m ∈ BBPSSW.memories w6self, (m.id, "RAW") ∈ upd) ∧
      (∀ e ∈ upd, e.2 = "RAW")) ∧
    (w6self.t0 + 2 * 10 ≤ 5 →
      BBPSSW.memory_expire w6self w6meas 5 10 = none) :=
  memory_expire_timing_windows w6self w6meas w6meas 5 10 rfl (by decide)

/-- C8: received_message fails fatally unless the sender is the linked
counterpart's owning node; with the right sender it always marks the
measurement memory RAW, and marks the kept memory ENTANGLED on a success
outcome and RAW on a failure outcome, through the resource-manager update
path. -/
theorem received_message_behavior (p a : BBPSSW) (src : String) :
    BBPSSW.received_message p none src = none ∧
    (src ≠ a.own_name → BBPSSW.received_message p (some a) src = none) ∧
    (src = a.own_name → p.is_success = some true →
      BBPSSW.received_message p (some a) src =
        some [(p.meas_memo.map Memory.id, "RAW"),
              (some p.kept_memo.id, "ENTANGLED")]) ∧
    (src = a.own_name → p.is_success = some false →
      BBPSSW.received_message p (some a) src =
        some [(p.meas_memo.map Memory.id, "RAW"),
              (some p.kept_memo.id, "RAW")]) := by
  refine ⟨rfl, ?_, ?_, ?_⟩
  · intro h
    simp [BBPSSW.received_message, h]
  · intro h hs
    simp [BBPSSW.received_message, h, hs]
  · intro h hs
    simp [BBPSSW.received_message, h, hs]

/-- Witness for C8 at the concrete pair used above, outcome success. -/
theorem received_message_behavior_witness :
    BBPSSW.received_message w4self2 none "bob" = none ∧
    ("bob" ≠ w6other.own_name →
      BBPSSW.received_message w4self2 (some w6other) "bob" = none) ∧
    ("bob" = w6other.own_name → w4self2.is_success = some true →
      BBPSSW.received_message w4self2 (some w6other) "bob" =
        some [(w4self2.meas_memo.map Memory.id, "RAW"),
              (some w4self2.kept_memo.id, "ENTANGLED")]) ∧
    ("bob" = w6other.own_name → w4self2.is_success = some false →
      BBPSSW.received_message w4self2 (some w6other) "bob" =
        some [(w4self2.meas_memo.map Memory.id, "RAW"),
              (some w4self2.kept_memo.id, "RAW")]) :=
  received_message_behavior w4self2 w6other "bob"

/-- C9: over the half-open interval from one half (excluded) to one
(included), the success probability lies in the half-open unit interval
from zero (excluded) to one (included), purification never decreases
fidelity on success, and both formulas evaluate to one at fidelity one. -/
theorem purification_fidelity_formulas (F : ℚ) (h1 : 1 / 2 < F) (h2 : F ≤ 1) :
    0 < BBPSSW.success_probability F ∧
    BBPSSW.success_probability F ≤ 1 ∧
    F ≤ BBPSSW.improved_fidelity F ∧
    BBPSSW.success_probability 1 = 1 ∧
    BBPSSW.improved_fidelity 1 = 1 := by
  have hpos : 0 < BBPSSW.success_probability F := by
    rw [BBPSSW.success_probability]
    nlinarith [sq_nonneg (1 - F), sq_nonneg F]
  refine ⟨hpos, ?_, ?_, ?_, ?_⟩
  · rw [BBPSSW.success_probability]
    nlinarith [sq_nonneg (1 - F)]
  · rw [BBPSSW.improved_fidelity]
    rw [le_div_iff₀ (by rw [BBPSSW.success_probability] at hpos; linarith)]
    have ha : (0:ℚ) ≤ 1 - F := by linarith
    have hb : (0:ℚ) ≤ 4 * F - 1 := by linarith
    have hc : (0:ℚ) ≤ 2 * F - 1 := by linarith
    nlinarith [mul_nonneg (mul_nonneg ha hb) hc]
  · rw [BBPSSW.success_probability]
    norm_num
  · rw [BBPSSW.improved_fidelity]
    norm_num

/-- Witness for C9 at fidelity three quarters. -/
theorem purification_fidelity_formulas_witness :
    0 < BBPSSW.success_probability (3 / 4) ∧
    BBPSSW.success_probability (3 / 4) ≤ 1 ∧
    (3:ℚ) / 4 ≤ BBPSSW.improved_fidelity (3 / 4) ∧
    BBPSSW.success_probability 1 = 1 ∧
    BBPSSW.improved_fidelity 1 = 1 :=
  purification_fidelity_formulas (3 / 4) (by norm_num) (by norm_num)

/-- A store operation, for reasoning about arbitrary interleavings of
allocation (new), forced overwrite (set), circuit application and
removal. -/
inductive Op where
  | new (amps : List ℤ)
  | set (keys : List Nat) (amps : List ℤ)
  | remove (k : Nat)
  | runCircuit (c : Circuit) (keys : List Nat)
  deriving DecidableEq, Repr

/-- One operation against the store; the second component is the key
returned when the operation is new. -/
def stepOp (m : QuantumManager) : Op → Option (QuantumManager × Option Nat)
  | Op.new amps => (qmNew m amps).map (fun p => (p.2, some p.1))
  | Op.set keys amps => (qmSet m keys amps).map (fun m2 => (m2, none))
  | Op.remove k => (qmRemove m k).map (fun m2 => (m2, none))
  | Op.runCircuit c keys => (run_circuit m c keys).map (fun m2 => (m2, none))

/-- Run a sequence of operations, collecting the keys returned by the new
operations in order; none as soon as one operation aborts. -/
def runOps (m : QuantumManager) : List Op → Option (QuantumManager × List Nat)
  | [] => some (m, [])
  | op :: ops =>
      match stepOp m op with
      | none => none
      | some (m1, out) =>
          match runOps m1 ops with
          | none => none
          | some (m2, outs) => some (m2, out.toList ++ outs)

/-- The side condition of the amended claim on a single operation: a set
may touch only keys below the allocation counter at the moment it runs,
i.e. keys the allocator has already handed out. -/
def setGuard (m : QuantumManager) : Op → Bool
  | Op.set keys _ => keys.all (fun k => decide (k < m.least_available))
  | _ => true

/-- The side condition of the amended claim, checked along a trace. -/
def goodSets : QuantumManager → List Op → Bool
  | _, [] => true
  | m, op :: ops =>
      setGuard m op &&
      (match stepOp m op with
       | some (m1, _) => goodSets m1 ops
       | none => true)

/-- Every stored entry, both its key and every member key of its
KetState, lies below the allocation counter. -/
def KeysBounded (m : QuantumManager) : Prop :=
  ∀ p ∈ m.states, p.1 < m.least_available ∧
    ∀ k ∈ p.2.keys, k < m.least_available

theorem mem_insertKey {st : List (Nat × KetState)} {k : Nat} {v : KetState}
    {p : Nat × KetState} (h : p ∈ insertKey st k v) :
    p = (k, v) ∨ p ∈ st := by
  rcases List.mem_cons.mp h with h | h
  · exact Or.inl h
  · exact Or.inr (List.mem_filter.mp h).1

theorem lookupKey_mem {st : List (Nat × KetState)} {k : Nat} {q : KetState}
    (h : lookupKey st k = some q) : (k, q) ∈ st := by
  unfold lookupKey at h
  cases hf : st.find? (fun p => p.1 == k) with
  | none => simp [hf] at h
  | some p =>
      have hp : p ∈ st := List.mem_of_find?_eq_some hf
      have hk : p.1 = k := by simpa using List.find?_some hf
      have h2 : p.2 = q := by simpa [hf] using h
      rw [← h2, ← hk]
      simpa using hp

theorem collect_keys_origin {st : List (Nat × KetState)} (ks : List Nat) :
    ∀ (old : List KetState) (acc : List Nat) (res : List KetState × List Nat),
      collect st ks old acc = some res →
      ∀ x ∈ res.2, x ∈ acc ∨ ∃ p ∈ st, x ∈ p.2.keys := by
  induction ks with
  | nil =>
      intro old acc res h x hx
      simp only [collect, Option.some.injEq] at h
      rw [← h] at hx
      exact Or.inl hx
  | cons k ks ih =>
      intro old acc res h x hx
      simp only [collect] at h
      split at h
      · simp at h
      · rename_i q hl
        split at h
        · simp at h
        · exact ih old acc res h x hx
        · rcases ih _ _ _ h x hx with hx2 | hx2
          · rcases List.mem_append.mp hx2 with h1 | h1
            · exact Or.inl h1
            · exact Or.inr ⟨(k, q), lookupKey_mem hl, h1⟩
          · exact Or.inr hx2

theorem getD_mem_or (l : List Nat) (i d : Nat) :
    l.getD i d ∈ l ∨ l.getD i d = d := by
  by_cases h : i < l.length
  · rw [List.getD_eq_getElem l d h]
    exact Or.inl (List.getElem_mem h)
  · rw [List.getD_eq_default l d (le_of_not_lt h)]
    exact Or.inr rfl

theorem swapSort_mem (n : Nat) (idx : List (Nat × Nat)) :
    ∀ (l : List Nat) (v : List ℤ) (x : Nat),
      x ∈ (swapSort n idx l v).1 → x ∈ l ∨ x = 0 := by
  induction idx with
  | nil => intro l v x hx; exact Or.inl hx
  | cons p rest ih =>
      intro l v x hx
      rw [swapSort] at hx
      by_cases hc : p.1 ≠ p.2
      · rw [if_pos hc] at hx
        rcases ih _ _ _ hx with hx2 | hx2
        · rcases List.mem_or_eq_of_mem_set hx2 with h1 | h1
          · rcases List.mem_or_eq_of_mem_set h1 with h2 | h2
            · exact Or.inl h2
            · rcases getD_mem_or l p.2 0 with h3 | h3
              · rw [h2]; exact Or.inl h3
              · exact Or.inr (h2.trans h3)
          · rcases getD_mem_or l p.1 0 with h3 | h3
            · rw [h1]; exact Or.inl h3
            · exact Or.inr (h1.trans h3)
        · exact Or.inr hx2
      · rw [if_neg hc] at hx
        exact ih _ _ _ hx

theorem publishLoop_mem (amps : List ℤ) (allKeys : List Nat) (rest : List Nat) :
    ∀ (st : List (Nat × KetState)) (nextObj : Nat) (p : Nat × KetState),
      p ∈ (publishLoop amps allKeys rest st nextObj).1 →
      p ∈ st ∨ (p.1 ∈ rest ∧ p.2.keys = allKeys) := by
  induction rest with
  | nil => intro st nextObj p hp; exact Or.inl hp
  | cons key rest ih =>
      intro st nextObj p hp
      rw [publishLoop] at hp
      rcases ih _ _ _ hp with hp2 | hp2
      · rcases mem_insertKey hp2 with h1 | h1
        · rw [h1]
          exact Or.inr ⟨List.mem_cons_self _ _, rfl⟩
        · exact Or.inl h1
      · exact Or.inr ⟨List.mem_cons_of_mem _ hp2.1, hp2.2⟩

theorem setLoop_mem (q : KetState) (keys : List Nat) :
    ∀ (st : List (Nat × KetState)) (p : Nat × KetState),
      p ∈ setLoop q keys st → p ∈ st ∨ (p.1 ∈ keys ∧ p.2 = q) := by
  induction keys with
  | nil => intro st p hp; exact Or.inl hp
  | cons k keys ih =>
      intro st p hp
      rw [setLoop] at hp
      rcases ih _ _ hp with hp2 | hp2
      · rcases mem_insertKey hp2 with h1 | h1
        · rw [h1]
          exact Or.inr ⟨List.mem_cons_self _ _, rfl⟩
        · exact Or.inl h1
      · exact Or.inr ⟨List.mem_cons_of_mem _ hp2.1, hp2.2⟩

theorem swapSort_length (n : Nat) (idx : List (Nat × Nat)) :
    ∀ (l : List Nat) (v : List ℤ),
      (swapSort n idx l v).1.length = l.length := by
  induction idx with
  | nil => intro l v; rfl
  | cons p rest ih =>
      intro l v
      rw [swapSort]
      by_cases hc : p.1 ≠ p.2
      · rw [if_pos hc, ih]
        simp
      · rw [if_neg hc, ih]

theorem publishStates_mem {st : List (Nat × KetState)} {no : Nat}
    {allKeys : List Nat} {amps : List ℤ} {st2 : List (Nat × KetState)}
    {no2 : Nat} (h : publishStates st no allKeys amps = some (st2, no2)) :
    ∀ p ∈ st2, p ∈ st ∨ (p.1 ∈ allKeys ∧ p.2.keys = allKeys) := by
  unfold publishStates at h
  split at h
  · rename_i heq
    simp only [Option.some.injEq, Prod.mk.injEq] at h
    intro p hp
    rw [← h.1] at hp
    exact Or.inl hp
  · split at h
    · simp only [Option.some.injEq] at h
      intro p hp
      have h1 : (publishLoop amps allKeys allKeys st no).1 = st2 := by rw [h]
      rw [← h1] at hp
      exact publishLoop_mem amps allKeys allKeys st no p hp
    · simp at h

theorem run_circuit_preserves {m m2 : QuantumManager} {c : Circuit}
    {keys : List Nat} (hb : KeysBounded m) (h : run_circuit m c keys = some m2) :
    m2.least_available = m.least_available ∧ KeysBounded m2 := by
  unfold run_circuit at h
  split at h
  · simp at h
  · rename_i col hcol
    dsimp only at h
    split at h
    · simp at h
    · split at h
      · simp at h
      · split at h
        · simp at h
        · rename_i circ_mat hmul new_state2 hmv pub hpub
          simp only [Option.some.injEq] at h
          have hak : ∀ x ∈ (swapSort col.2.length
              (keys.map (fun k => col.2.indexOf k)).enum col.2
              (col.1.foldl (fun v s => kronVec v s.state) [1])).1,
              x < m.least_available := by
            intro x hx
            rcases swapSort_mem _ _ _ _ _ hx with hx2 | hx2
            · rcases collect_keys_origin keys [] [] col hcol x hx2 with h3 | h3
              · simp at h3
              · obtain ⟨p, hp, hpk⟩ := h3
                exact (hb p hp).2 x hpk
            · have hlen : (swapSort col.2.length
                  (keys.map (fun k => col.2.indexOf k)).enum col.2
                  (col.1.foldl (fun v s => kronVec v s.state) [1])).1.length
                  = col.2.length := swapSort_length _ _ _ _
              have hne : col.2 ≠ [] := by
                intro hnil
                have h0 : (swapSort col.2.length
                    (keys.map (fun k => col.2.indexOf k)).enum col.2
                    (col.1.foldl (fun v s => kronVec v s.state) [1])).1 = [] :=
                  List.length_eq_zero.mp (by rw [hlen, hnil]; rfl)
                rw [h0] at hx
                simp at hx
              obtain ⟨y, hy⟩ := List.exists_mem_of_ne_nil col.2 hne
              rcases collect_keys_origin keys [] [] col hcol y hy with h3 | h3
              · simp at h3
              · obtain ⟨p, hp, hpk⟩ := h3
                have := (hb p hp).2 y hpk
                omega
          constructor
          · rw [← h]
          · intro p hp
            rw [← h] at hp
            rcases publishStates_mem hpub p hp with hp2 | hp2
            · have := hb p hp2
              rw [← h]
              exact this
            · rw [← h]
              refine ⟨hak p.1 hp2.1, ?_⟩
              intro k hk
              rw [hp2.2] at hk
              exact hak k hk

theorem run_circuit_la {m m2 : QuantumManager} {c : Circuit} {keys : List Nat}
    (h : run_circuit m c keys = some m2) :
    m2.least_available = m.least_available := by
  unfold run_circuit at h
  split at h
  · simp at h
  · dsimp only at h
    split at h
    · simp at h
    · split at h
      · simp at h
      · split at h
        · simp at h
        · simp only [Option.some.injEq] at h
          rw [← h]

theorem stepOp_counter {m m1 : QuantumManager} {op : Op} {out : Option Nat}
    (h : stepOp m op = some (m1, out)) :
    m.least_available ≤ m1.least_available ∧
    ∀ k, out = some k → k = m.least_available ∧
      m1.least_available = m.least_available + 1 := by
  cases op with
  | new amps =>
      simp only [stepOp, qmNew] at h
      split at h
      · simp at h
      · simp only [Option.map_some', Option.some.injEq, Prod.mk.injEq] at h
        obtain ⟨h1, h2⟩ := h
        rw [← h1, ← h2]
        refine ⟨Nat.le_succ _, ?_⟩
        intro k hk
        simp only [Option.some.injEq] at hk
        exact ⟨hk.symm, rfl⟩
  | set keys amps =>
      simp only [stepOp, qmSet] at h
      split at h
      · simp at h
      · simp only [Option.map_some', Option.some.injEq, Prod.mk.injEq] at h
        obtain ⟨h1, h2⟩ := h
        rw [← h1, ← h2]
        exact ⟨le_refl _, by simp⟩
  | remove k =>
      simp only [stepOp, qmRemove] at h
      split at h
      · simp only [Option.map_some', Option.some.injEq, Prod.mk.injEq] at h
        obtain ⟨h1, h2⟩ := h
        rw [← h1, ← h2]
        exact ⟨le_refl _, by simp⟩
      · simp at h
  | runCircuit c keys =>
      simp only [stepOp] at h
      cases hrc : run_circuit m c keys with
      | none => rw [hrc] at h; simp at h
      | some mm =>
          rw [hrc] at h
          simp only [Option.map_some', Option.some.injEq, Prod.mk.injEq] at h
          obtain ⟨h1, h2⟩ := h
          rw [← h1, ← h2]
          exact ⟨le_of_eq (run_circuit_la hrc).symm, by simp⟩

theorem runOps_spec {ops : List Op} :
    ∀ {m m2 : QuantumManager} {outs : List Nat},
      runOps m ops = some (m2, outs) →
      m.least_available ≤ m2.least_available ∧
      (∀ x ∈ outs, m.least_available ≤ x ∧ x < m2.least_available) ∧
      List.Pairwise (· < ·) outs := by
  induction ops with
  | nil =>
      intro m m2 outs h
      simp only [runOps, Option.some.injEq, Prod.mk.injEq] at h
      obtain ⟨h1, h2⟩ := h
      rw [← h1, ← h2]
      exact ⟨le_refl _, by simp, by simp⟩
  | cons op ops ih =>
      intro m m2 outs h
      simp only [runOps] at h
      split at h
      · simp at h
      · rename_i m1 out hstep
        split at h
        · simp at h
        · rename_i m2x outs2 hrun
          simp only [Option.some.injEq, Prod.mk.injEq] at h
          obtain ⟨h1, h2⟩ := h
          obtain ⟨hla, hout⟩ := stepOp_counter hstep
          obtain ⟨ihla, ihbound, ihpw⟩ := ih hrun
          rw [← h1, ← h2]
          refine ⟨le_trans hla ihla, ?_, ?_⟩
          · intro x hx
            rcases List.mem_append.mp hx with hx2 | hx2
            · cases out with
              | none => simp at hx2
              | some kk =>
                  simp only [Option.toList_some, List.mem_singleton] at hx2
                  obtain ⟨he, hla2⟩ := hout kk rfl
                  rw [hx2, he]
                  constructor
                  · exact le_refl _
                  · calc m.least_available < m.least_available + 1 := Nat.lt_succ_self _
                      _ = m1.least_available := hla2.symm
                      _ ≤ m2x.least_available := ihla
            · obtain ⟨hb1, hb2⟩ := ihbound x hx2
              exact ⟨le_trans hla hb1, hb2⟩
          · rw [List.pairwise_append]
            refine ⟨?_, ihpw, ?_⟩
            · cases out <;> simp
            · intro a ha b hb
              cases out with
              | none => simp at ha
              | some kk =>
                  simp only [Option.toList_some, List.mem_singleton] at ha
                  obtain ⟨he, hla2⟩ := hout kk rfl
                  have hbb := (ihbound b hb).1
                  rw [ha, he]
                  omega

theorem stepOp_bounded {m m1 : QuantumManager} {op : Op} {out : Option Nat}
    (hb : KeysBounded m) (h : stepOp m op = some (m1, out))
    (hgood : setGuard m op = true) :
    KeysBounded m1 := by
  cases op with
  | new amps =>
      simp only [stepOp, qmNew] at h
      split at h
      · simp at h
      · rename_i q hv
        simp only [Option.map_some', Option.some.injEq, Prod.mk.injEq] at h
        obtain ⟨h1, -⟩ := h
        have hq : q.keys = [m.least_available] := by
          simp only [mkKetState] at hv
          split at hv
          · simp only [Option.some.injEq] at hv
            rw [← hv]
          · simp at hv
        intro p hp
        rw [← h1] at hp ⊢
        rcases mem_insertKey hp with h2 | h2
        · rw [h2]
          exact ⟨Nat.lt_succ_self _, by simp [hq]⟩
        · obtain ⟨hb1, hb2⟩ := hb p h2
          exact ⟨Nat.lt_succ_of_lt hb1, fun k hk => Nat.lt_succ_of_lt (hb2 k hk)⟩
  | set keys amps =>
      simp only [stepOp, qmSet] at h
      split at h
      · simp at h
      · rename_i q hv
        simp only [Option.map_some', Option.some.injEq, Prod.mk.injEq] at h
        obtain ⟨h1, -⟩ := h
        have hq : q.keys = keys := by
          simp only [mkKetState] at hv
          split at hv
          · simp only [Option.some.injEq] at hv
            rw [← hv]
          · simp at hv
        intro p hp
        rw [← h1] at hp ⊢
        have hkeys : ∀ k ∈ keys, k < m.least_available := by
          intro k hk
          have := List.all_eq_true.mp hgood k hk
          exact of_decide_eq_true this
        rcases setLoop_mem _ _ _ _ hp with h2 | h2
        · exact hb p h2
        · refine ⟨hkeys p.1 h2.1, ?_⟩
          intro k hk
          rw [h2.2, hq] at hk
          exact hkeys k hk
  | remove kk =>
      simp only [stepOp, qmRemove] at h
      split at h
      · simp only [Option.map_some', Option.some.injEq, Prod.mk.injEq] at h
        obtain ⟨h1, -⟩ := h
        intro p hp
        rw [← h1] at hp ⊢
        exact hb p (List.mem_filter.mp hp).1
      · simp at h
  | runCircuit c keys =>
      simp only [stepOp] at h
      cases hrc : run_circuit m c keys with
      | none => rw [hrc] at h; simp at h
      | some mm =>
          rw [hrc] at h
          simp only [Option.map_some', Option.some.injEq, Prod.mk.injEq] at h
          obtain ⟨h1, -⟩ := h
          obtain ⟨hla, hbb⟩ := run_circuit_preserves hb hrc
          rw [← h1]
          exact hbb

theorem runOps_bounded {ops : List Op} :
    ∀ {m m2 : QuantumManager} {outs : List Nat},
      KeysBounded m → goodSets m ops = true →
      runOps m ops = some (m2, outs) → KeysBounded m2 := by
  induction ops with
  | nil =>
      intro m m2 outs hb hg h
      simp only [runOps, Option.some.injEq, Prod.mk.injEq] at h
      rw [← h.1]
      exact hb
  | cons op ops ih =>
      intro m m2 outs hb hg h
      simp only [runOps] at h
      split at h
      · simp at h
      · rename_i m1 out hstep
        split at h
        · simp at h
        · rename_i m2x outs2 hrun
          simp only [Option.some.injEq, Prod.mk.injEq] at h
          simp only [goodSets, hstep, Bool.and_eq_true] at hg
          have hb1 : KeysBounded m1 := stepOp_bounded hb hstep hg.1
          rw [← h.1]
          exact ih hb1 hg.2 hrun

theorem qmRemove_key_lt {m m1 : QuantumManager} {k : Nat}
    (hb : KeysBounded m) (h : qmRemove m k = some m1) :
    k < m.least_available ∧
    m1.least_available = m.least_available := by
  unfold qmRemove at h
  split at h
  · rename_i hsome
    obtain ⟨q, hq⟩ := Option.isSome_iff_exists.mp hsome
    simp only [Option.some.injEq] at h
    refine ⟨(hb _ (lookupKey_mem hq)).1, ?_⟩
    rw [← h]
  · simp at h

/-- C7 (amended): along any successful trace from the empty store, the
keys handed out by new are pairwise strictly increasing in order of
allocation; and a key whose removal succeeds is never handed out by a
later new, provided every set operation up to the removal touched only
keys already below the allocation counter.  (A set that injects a key at
or above the counter breaks the second part, see the counterexample.) -/
theorem qm_alloc_monotonic_no_reuse (pre post : List Op) (k : Nat)
    (m1 m2 m3 : QuantumManager) (o1 o3 : List Nat)
    (hg : goodSets qmEmpty pre = true)
    (h1 : runOps qmEmpty pre = some (m1, o1))
    (h2 : stepOp m1 (Op.remove k) = some (m2, none))
    (h3 : runOps m2 post = some (m3, o3)) :
    List.Pairwise (· < ·) (o1 ++ o3) ∧ ∀ x ∈ o3, k < x := by
  have hbE : KeysBounded qmEmpty := by
    intro p hp
    simp [qmEmpty] at hp
  have hb1 : KeysBounded m1 := runOps_bounded hbE hg h1
  have hrm : qmRemove m1 k = some m2 := by
    simp only [stepOp] at h2
    cases hr : qmRemove m1 k with
    | none => rw [hr] at h2; simp at h2
    | some mm =>
        rw [hr] at h2
        simp only [Option.map_some', Option.some.injEq, Prod.mk.injEq] at h2
        rw [← h2.1]
  obtain ⟨hk, hla⟩ := qmRemove_key_lt hb1 hrm
  obtain ⟨-, hbound1, hpw1⟩ := runOps_spec h1
  obtain ⟨-, hbound3, hpw3⟩ := runOps_spec h3
  constructor
  · rw [List.pairwise_append]
    refine ⟨hpw1, hpw3, ?_⟩
    intro a ha b hb
    have ha2 := (hbound1 a ha).2
    have hb2 := (hbound3 b hb).1
    omega
  · intro x hx
    have := (hbound3 x hx).1
    omega

/-- Counterexample for C7 as stated: set may introduce a key at or above
the allocation counter; removing it does not protect it from a later new.
The trace forces key 0 into the fresh store, removes it, and the next new
returns that very key 0 again. -/
theorem qm_removed_key_reallocated :
    (runOps qmEmpty [Op.set [0] [1, 0], Op.remove 0, Op.new [1, 0]]).map
        (fun r => r.2) = some [0] := by
  decide

def w7m1 : QuantumManager := ⟨[(0, ⟨0, [1, 0], [0]⟩)], 1, 1⟩
def w7m2 : QuantumManager := ⟨[], 1, 1⟩
def w7m3 : QuantumManager := ⟨[(1, ⟨1, [1, 0], [1]⟩)], 2, 2⟩

/-- Witness for the amended C7: allocate key 0, remove it, allocate again;
the second allocation returns 1, strictly above the removed key. -/
theorem qm_alloc_monotonic_no_reuse_witness :
    List.Pairwise (· < ·) ([0] ++ [1]) ∧ ∀ x ∈ [1], 0 < x :=
  qm_alloc_monotonic_no_reuse [Op.new [1, 0]] [Op.new [1, 0]] 0
    w7m1 w7m2 w7m3 [0] [1] (by decide) (by decide) (by decide) (by decide)
